import Mathlib

/-!
Verification development for the dappspec documentation generator
(`dappspec.go`).  Byte slices and Go strings are modelled as lists of
characters (`Str`); every marker involved is ASCII, so byte positions and
character positions coincide.  Regular-expression operations from the source
are modelled by explicit scanners implementing Go's leftmost / greedy
match-and-replace semantics for the concrete patterns the source compiles.
-/

namespace Dappspec

/-- Byte/character strings of the program, modelled as character lists. -/
abbrev Str := List Char

/-- Character class of Go's regexp `\s` (RE2 Perl class): `[\t\n\f\r ]`. -/
def isGoWS (c : Char) : Bool :=
  c = ' ' || c = '\t' || c = '\n' || c = '\x0c' || c = '\r'

/-- Unicode white space as tested by Go's `unicode.IsSpace`
(used by `strings.TrimSpace`). -/
def isSpaceU (c : Char) : Bool :=
  c = ' ' || c = '\t' || c = '\n' || c = '\x0b' || c = '\x0c' || c = '\r' ||
  c.toNat = 0x85 || c.toNat = 0xA0 || c.toNat = 0x1680 ||
  (0x2000 ≤ c.toNat && c.toNat ≤ 0x200A) ||
  c.toNat = 0x2028 || c.toNat = 0x2029 || c.toNat = 0x202F ||
  c.toNat = 0x205F || c.toNat = 0x3000

/-- Character class of Go's regexp `\w`: `[0-9A-Za-z_]`. -/
def isWordChar (c : Char) : Bool :=
  ('a' ≤ c && c ≤ 'z') || ('A' ≤ c && c ≤ 'Z') || ('0' ≤ c && c ≤ '9') || c = '_'

/-- Go `strings.Split` / `bytes.Split` with a one-character separator. -/
def splitOnChar (sep : Char) : Str → List Str
  | [] => [[]]
  | c :: rest =>
    match splitOnChar sep rest with
    | [] => [[]]
    | g :: gs => if c = sep then [] :: g :: gs else (c :: g) :: gs

/-- Splitting at every character satisfying a predicate (same shape as
`splitOnChar`, used to express whitespace-delimited tokenisation). -/
def splitOnPred (p : Char → Bool) : Str → List Str
  | [] => [[]]
  | c :: rest =>
    match splitOnPred p rest with
    | [] => [[]]
    | g :: gs => if p c then [] :: g :: gs else (c :: g) :: gs

/-- Modelled from the spec: the whitespace-delimited tokens of a line
("second whitespace-delimited token" in the tag-derivation sentence). -/
def wsTokens (l : Str) : List Str :=
  (splitOnPred isSpaceU l).filter (fun part => !part.isEmpty)

/-- A `Language` of the registry: `name` is the highlighter name, `symbol`
the comment delimiter.  The `commentMatcher`, `dividerText` and `dividerHTML`
fields of the source are regular expressions / strings derived from `symbol`
in `setup()`; they are modelled below as functions of the language. -/
structure Language where
  name : Str
  symbol : Str
deriving DecidableEq

/-- The single registered language (`setupLanguages`): `.sol` ↦ solidity. -/
def solidity : Language := ⟨"solidity".data, "///".data⟩

/-- The language registry `languages`, keyed by file extension. -/
def languages : List (Str × Language) := [(".sol".data, solidity)]

/-- `lang.dividerText` as computed in `setup()`:
`"\n" + lang.symbol + "DIVIDER\n"`. -/
def dividerText (lang : Language) : Str :=
  '\n' :: (lang.symbol ++ "DIVIDER\n".data)

/-- The final `\s?` of the comment matcher: greedily consume one white
space character if present. -/
def dropOneGoWS : Str → Str
  | [] => []
  | c :: rest => if isGoWS c then rest else c :: rest

/-- Matching of the anchored regular expression `^\s*SYMBOL\s?` compiled in
`setup()` (with `SYMBOL` the comment delimiter), following Go's greedy
backtracking: consume as much leading `\s` as possible, then the symbol,
then at most one `\s`.  Returns the line with the match removed (what
`commentMatcher.ReplaceAll(line, nil)` produces), or `none` when the line
does not match. -/
def stripGo (sym : Str) : Str → Option Str
  | [] => if sym.isPrefixOf ([] : Str) then some [] else none
  | c :: rest =>
    if isGoWS c then
      match stripGo sym rest with
      | some r => some r
      | none =>
        if sym.isPrefixOf (c :: rest) then
          some (dropOneGoWS ((c :: rest).drop sym.length))
        else none
    else
      if sym.isPrefixOf (c :: rest) then
        some (dropOneGoWS ((c :: rest).drop sym.length))
      else none

/-- `language.commentMatcher.Match(line)`. -/
def commentMatch (lang : Language) (line : Str) : Bool :=
  (stripGo lang.symbol line).isSome

/-- `language.commentMatcher.ReplaceAll(line, nil)`. -/
def stripComment (lang : Language) (line : Str) : Str :=
  (stripGo lang.symbol line).getD line

/-- A `Section` of the source: raw documentation text, raw code text, the
first code line, and the rendered fields filled in by `highlight`
(`nil`, i.e. empty, right after `parse`). -/
structure Section where
  docsText : Str
  codeText : Str
  firstCodeLine : Str
  DocsHTML : Str
  CodeHTML : Str
deriving DecidableEq

/-- A `TemplateSection` handed to the page template by `generateHTML`. -/
structure TemplateSection where
  DocsHTML : Str
  CodeHTML : Str
  SectionTag : Str
deriving DecidableEq

/-- The mutable state of `parse`'s scanning loop: the `hasCode` flag, the
two accumulating buffers and the `firstCodeLine` variable. -/
structure PState where
  hasCode : Bool
  codeText : Str
  docsText : Str
  firstCodeLine : Str

/-- The line loop of `parse`: on a comment line following code, save the
accumulated section and restart the buffers with the stripped comment line;
on a comment line otherwise, append the stripped line to the docs buffer; on
a code line, record `firstCodeLine` on a transition into code and append the
raw line to the code buffer.  At end of input the accumulators are saved
unconditionally.  (`firstCodeLine` is never reset by a save, exactly as in
the source.) -/
def parseLines (lang : Language) : List Str → PState → List Section
  | [], st => [⟨st.docsText, st.codeText, st.firstCodeLine, [], []⟩]
  | l :: rest, st =>
    if commentMatch lang l then
      if st.hasCode then
        ⟨st.docsText, st.codeText, st.firstCodeLine, [], []⟩ ::
          parseLines lang rest ⟨false, [], stripComment lang l ++ ['\n'], st.firstCodeLine⟩
      else
        parseLines lang rest
          ⟨st.hasCode, st.codeText, st.docsText ++ stripComment lang l ++ ['\n'], st.firstCodeLine⟩
    else
      parseLines lang rest
        ⟨true, st.codeText ++ l ++ ['\n'], st.docsText,
          if st.hasCode then st.firstCodeLine else l⟩

/-- `parse`: split the file on newlines and run the scanning loop from the
zero state.  (The source resolves the `Language` from the file name; here it
is passed directly.) -/
def parseFile (lang : Language) (code : Str) : List Section :=
  parseLines lang (splitOnChar '\n' code) ⟨false, [], [], []⟩

/-! ### Instrumented segmenter

`iparse` is `parse` with the accumulating buffers kept as lists of lines,
additionally recording each documentation line as it appeared **before**
comment-symbol stripping.  `parseLines_eq_iparse` below proves that
projecting the instrumented run (joining each recorded line with a trailing
newline) is exactly `parse`; the raw lines support the segmentation
completeness statements. -/

/-- A section as produced by the instrumented segmenter. -/
structure ISection where
  rawDocs : List Str
  docs : List Str
  codeLines : List Str
  firstCodeLine : Str
deriving DecidableEq

/-- Scanning state of the instrumented segmenter. -/
structure IState where
  hasCode : Bool
  rawDocs : List Str
  docs : List Str
  codeLines : List Str
  firstCodeLine : Str

/-- Join a list of lines, terminating every line (including the last) with a
newline — the way both buffers of `parse` are built. -/
def joinNl (ls : List Str) : Str :=
  (ls.map (fun l => l ++ ['\n'])).flatten

/-- The instrumented line loop (same branching as `parseLines`). -/
def iparse (lang : Language) : List Str → IState → List ISection
  | [], st => [⟨st.rawDocs, st.docs, st.codeLines, st.firstCodeLine⟩]
  | l :: rest, st =>
    if commentMatch lang l then
      if st.hasCode then
        ⟨st.rawDocs, st.docs, st.codeLines, st.firstCodeLine⟩ ::
          iparse lang rest ⟨false, [l], [stripComment lang l], [], st.firstCodeLine⟩
      else
        iparse lang rest
          ⟨st.hasCode, st.rawDocs ++ [l], st.docs ++ [stripComment lang l],
            st.codeLines, st.firstCodeLine⟩
    else
      iparse lang rest
        ⟨true, st.rawDocs, st.docs, st.codeLines ++ [l],
          if st.hasCode then st.firstCodeLine else l⟩

/-- The instrumented segmenter on a whole file. -/
def iparseFile (lang : Language) (code : Str) : List ISection :=
  iparse lang (splitOnChar '\n' code) ⟨false, [], [], [], []⟩

/-- Projecting an instrumented section back to a `Section`. -/
def isectionToSection (s : ISection) : Section :=
  ⟨joinNl s.docs, joinNl s.codeLines, s.firstCodeLine, [], []⟩

/-- Projecting an instrumented state back to a `PState`. -/
def istateToPState (st : IState) : PState :=
  ⟨st.hasCode, joinNl st.codeLines, joinNl st.docs, st.firstCodeLine⟩

/-- All lines of a list of instrumented sections, documentation lines taken
raw (pre-strip), in order. -/
def allRawLines (secs : List ISection) : List Str :=
  (secs.map (fun s => s.rawDocs ++ s.codeLines)).flatten

/-! ### Highlight coordinator -/

/-- `highlightStart`: the container opening stripped from / re-added to
highlighter output. -/
def hlStart : Str := "<div class=\"highlight\"><pre>".data

/-- `highlightEnd`: the container closing. -/
def hlEnd : Str := "</pre></div>".data

/-- Go `bytes.Replace(s, pat, repl, -1)`: replace all leftmost
non-overlapping occurrences, never rescanning a replacement.  Fuel-driven
scan; the wrapper passes the input length, which bounds the recursion
depth since every step consumes at least one character when `pat` is
nonempty. -/
def replaceAllFuel (pat repl : Str) : Nat → Str → Str
  | 0, l => l
  | _ + 1, [] => []
  | fuel + 1, c :: rest =>
    if pat.isPrefixOf (c :: rest) && !pat.isEmpty then
      repl ++ replaceAllFuel pat repl fuel ((c :: rest).drop pat.length)
    else
      c :: replaceAllFuel pat repl fuel rest

/-- Replace every occurrence of `pat` by `repl`. -/
def replaceAll (pat repl l : Str) : Str :=
  replaceAllFuel pat repl l.length l

/-- Stripping of the whole-document container markers from the highlighter
output (`bytes.Replace` with `highlightStart`, then with `highlightEnd`). -/
def stripContainers (out : Str) : Str :=
  replaceAll hlEnd [] (replaceAll hlStart [] out)

/-- The literal core of the compiled `dividerHTML` pattern
`\n*<span class="c1?">SYMBOLDIVIDER</span>\n*`: the part between the
newline runs, with (`one = true`) or without the optional `1`. -/
def dividerCore (symbol : Str) (one : Bool) : Str :=
  "<span class=\"c".data ++ (if one then ['1'] else []) ++ "\">".data ++
    symbol ++ "DIVIDER</span>".data

/-- Match of the divider core at the head of `l` (the greedy `1?` tries the
`1` variant first), returning the length of the consumed core. -/
def coreAt (symbol : Str) (l : Str) : Option Nat :=
  if (dividerCore symbol true).isPrefixOf l then some (dividerCore symbol true).length
  else if (dividerCore symbol false).isPrefixOf l then some (dividerCore symbol false).length
  else none

/-- Scan for the leftmost match of `dividerHTML`.  A match is a divider core
extended over the newline run immediately before it (tracked in `nlRun`) and
the newline run immediately after it; the earliest core yields the leftmost
match.  Returns the half-open interval of the match in the original
buffer. -/
def findDividerAux (symbol : Str) : Str → Nat → Nat → Option (Nat × Nat)
  | [], _, _ => none
  | c :: rest, pos, nlRun =>
    match coreAt symbol (c :: rest) with
    | some len =>
      some (pos - nlRun, pos + len + (((c :: rest).drop len).takeWhile (fun d => d = '\n')).length)
    | none => findDividerAux symbol rest (pos + 1) (if c = '\n' then nlRun + 1 else 0)

/-- `language.dividerHTML.FindIndex(output)`. -/
def findDividerL (symbol : Str) (l : Str) : Option (Nat × Nat) :=
  findDividerAux symbol l 0 0

/-- One write of `highlight`'s feeding loop to the highlighter's input
stream: a section's code text, or the divider text between two sections. -/
inductive WriteEvent where
  | code (text : Str)
  | divider
deriving DecidableEq

/-- Whether a write event is a divider write. -/
def isDividerWrite : WriteEvent → Bool
  | .divider => true
  | .code _ => false

/-- The sequence of writes `highlight` performs on the highlighter's input
stream: each section's `codeText` in order, with one divider write between
consecutive sections (`e.Next() != nil`) and none after the last. -/
def highlightWrites (lang : Language) : List Section → List WriteEvent
  | [] => []
  | [s] => [.code s.codeText]
  | s :: s' :: rest => .code s.codeText :: .divider :: highlightWrites lang (s' :: rest)

/-- The bytes of a write event (`dividerText` for a divider write). -/
def writeBytes (lang : Language) : WriteEvent → Str
  | .code t => t
  | .divider => dividerText lang

/-- The fragment-splitting loop of `highlight`: for each section locate the
next `dividerHTML` match (treating "no match" as the interval
`[len, len)`), take the text before the match as the section's fragment,
re-wrap it in the container markers, fill in `DocsHTML` from the Markdown
transform, and continue past the match.  The Markdown renderer (the external
`blackfriday` library) is passed in as a function. -/
def highlightLoop (symbol : Str) (markdown : Str → Str) : Str → List Section → List Section
  | _, [] => []
  | out, sec :: rest =>
    let idx := match findDividerL symbol out with
      | some ij => ij
      | none => (out.length, out.length)
    { sec with
        CodeHTML := hlStart ++ out.take idx.1 ++ hlEnd,
        DocsHTML := markdown sec.docsText } ::
      highlightLoop symbol markdown (out.drop idx.2) rest

/-- The sequence of `n` fragments the splitting loop extracts from a
buffer. -/
def splitFragments (symbol : Str) : Str → Nat → List Str
  | _, 0 => []
  | out, n + 1 =>
    let idx := match findDividerL symbol out with
      | some ij => ij
      | none => (out.length, out.length)
    out.take idx.1 :: splitFragments symbol (out.drop idx.2) n

/-- `highlight`, given the bytes the external process wrote to its output
stream: strip the container markers, then split the buffer back into
per-section fragments. -/
def highlight (lang : Language) (markdown : Str → Str) (pygOut : Str)
    (secs : List Section) : List Section :=
  highlightLoop lang.symbol markdown (stripContainers pygOut) secs

/-- Result of interacting with the external highlighter process:
whether `pygments.Start()` returned an error, and the bytes read from its
output stream (empty when the process never started). -/
structure ProcResult where
  startFailed : Bool
  output : Str

/-- `highlight` including the process interaction: the source discards the
errors of `StdinPipe`, `StdoutPipe`, `Start` and of every stream write
(`pygmentsInput, _ := ...`, bare `pygments.Start()`), so the start error is
ignored and only the bytes read back matter. -/
def highlightProc (lang : Language) (markdown : Str → Str) (pr : ProcResult)
    (secs : List Section) : List Section :=
  highlight lang markdown pr.output secs

/-! ### Section composer -/

/-- Go `strings.TrimSpace` (Unicode white space trimmed from both ends). -/
def trimSpace (l : Str) : Str :=
  ((l.dropWhile isSpaceU).reverse.dropWhile isSpaceU).reverse

/-- The declaration test shared by `getSectionTag` and `getFieldOrType`:
the first code line starts with one of the recognized keywords. -/
def isDecl (l : Str) : Bool :=
  "notice".data.isPrefixOf l || "dev".data.isPrefixOf l ||
  "params".data.isPrefixOf l || "return".data.isPrefixOf l

/-- `getSectionTag`: a non-declaration line yields the stringified index;
a declaration line yields `strings.TrimSpace(parts[1])` of the split on
single spaces.  The source indexes `parts[1]` without a length guard — a Go
panic — modelled by `none`. -/
def getSectionTag (index : Nat) (firstCodeLine : Str) : Option Str :=
  if !(isDecl firstCodeLine) then some (Nat.repr index).data
  else ((splitOnChar ' ' firstCodeLine)[1]?).map trimSpace

/-- `getFieldOrType`: a non-declaration line yields its first space-split
field (the source guards `len(parts) > 0`, which always holds); a
declaration line yields the unguarded `parts[1]` — again `none` on
a panic. -/
def getFieldOrType (firstCodeLine : Str) : Option Str :=
  if !(isDecl firstCodeLine) then
    match splitOnChar ' ' firstCodeLine with
    | p :: _ => some (trimSpace p)
    | [] => some []
  else ((splitOnChar ' ' firstCodeLine)[1]?).map trimSpace

/-- The replacement template of `referenceRx`
(`<a href="#section-$1" title="Jump to $1">$1</a>`). -/
def refTemplate (w : Str) : Str :=
  "<a href=\"#section-".data ++ w ++ "\" title=\"Jump to ".data ++ w ++
    "\">".data ++ w ++ "</a>".data

/-- Match of `referenceRx = @@([\w]+)` at the head of the buffer: two `@`
followed by a maximal nonempty run of word characters. -/
def refMatch : Str → Option (Str × Str)
  | '@' :: '@' :: rest =>
    let w := rest.takeWhile isWordChar
    if w.isEmpty then none else some (w, rest.drop w.length)
  | _ => none

/-- `referenceRx.ReplaceAll(text, referenceTpl)` as a fuel-driven leftmost
scan (each replacement consumes at least three characters). -/
def refReplaceFuel : Nat → Str → Str
  | 0, l => l
  | _ + 1, [] => []
  | fuel + 1, c :: rest =>
    match refMatch (c :: rest) with
    | some (w, r) => refTemplate w ++ refReplaceFuel fuel r
    | none => c :: refReplaceFuel fuel rest

/-- Cross-reference rewriting of the rendered prose. -/
def refReplaceAll (l : Str) : Str := refReplaceFuel l.length l

/-- `<strong>` opening marker. -/
def strongOpen : Str := "<strong>".data

/-- `</strong>` closing marker. -/
def strongClose : Str := "</strong>".data

/-- Match of `([\s]+)(ref)` at the head of the buffer, with the greedy,
backtracking `\s+`: the longest whitespace run followed by the literal
`ref` wins (`ref` is `regexp.QuoteMeta`-quoted in the source, hence a
literal).  Returns the matched whitespace and the remainder after `ref`. -/
def match1 (ref : Str) : Str → Option (Str × Str)
  | [] => none
  | c :: rest =>
    if isGoWS c then
      match match1 ref rest with
      | some (ws, r) => some (c :: ws, r)
      | none =>
        if ref.isPrefixOf rest then some ([c], rest.drop ref.length) else none
    else none

/-- Match of `(ref)([\s]+)` at the head of the buffer: the literal `ref`
followed by a maximal nonempty whitespace run. -/
def match2 (ref : Str) (l : Str) : Option (Str × Str) :=
  if ref.isPrefixOf l then
    let rem := l.drop ref.length
    let ws := rem.takeWhile isGoWS
    if ws.isEmpty then none else some (ws, rem.drop ws.length)
  else none

/-- Match of `([\s]+)(ref)([\s]+)` at the head of the buffer: greedy
backtracking leading run, the literal, then a maximal nonempty trailing
run.  Returns leading run, trailing run, and the remainder. -/
def match3 (ref : Str) : Str → Option (Str × Str × Str)
  | [] => none
  | c :: rest =>
    if isGoWS c then
      match match3 ref rest with
      | some (ws, trail, r) => some (c :: ws, trail, r)
      | none =>
        if ref.isPrefixOf rest then
          let rem := rest.drop ref.length
          let trail := rem.takeWhile isGoWS
          if trail.isEmpty then none else some ([c], trail, rem.drop trail.length)
        else none
    else none

/-- First `ReplaceAll` pass of `highlightRefs`:
`([\s]+)(ref)` ↦ `$1<strong>$2</strong>`. -/
def pass1 (ref : Str) : Nat → Str → Str
  | 0, l => l
  | _ + 1, [] => []
  | fuel + 1, c :: rest =>
    match match1 ref (c :: rest) with
    | some (ws, r) => ws ++ strongOpen ++ ref ++ strongClose ++ pass1 ref fuel r
    | none => c :: pass1 ref fuel rest

/-- Second `ReplaceAll` pass of `highlightRefs`:
`(ref)([\s]+)` ↦ `<strong>$1</strong>$2`. -/
def pass2 (ref : Str) : Nat → Str → Str
  | 0, l => l
  | _ + 1, [] => []
  | fuel + 1, c :: rest =>
    match match2 ref (c :: rest) with
    | some (ws, r) => strongOpen ++ ref ++ strongClose ++ ws ++ pass2 ref fuel r
    | none => c :: pass2 ref fuel rest

/-- Third `ReplaceAll` pass of `highlightRefs`:
`([\s]+)(ref)([\s]+)` ↦ `$1<strong>$2</strong>$3`. -/
def pass3 (ref : Str) : Nat → Str → Str
  | 0, l => l
  | _ + 1, [] => []
  | fuel + 1, c :: rest =>
    match match3 ref (c :: rest) with
    | some (ws, trail, r) =>
      ws ++ strongOpen ++ ref ++ strongClose ++ trail ++ pass3 ref fuel r
    | none => c :: pass3 ref fuel rest

/-- Whether the first pass finds a match anywhere in the buffer. -/
def findPass1 (ref : Str) : Str → Bool
  | [] => false
  | c :: rest => (match1 ref (c :: rest)).isSome || findPass1 ref rest

/-- Whether the second pass finds a match anywhere in the buffer. -/
def findPass2 (ref : Str) : Str → Bool
  | [] => false
  | c :: rest => (match2 ref (c :: rest)).isSome || findPass2 ref rest

/-- Whether the third pass finds a match anywhere in the buffer. -/
def findPass3 (ref : Str) : Str → Bool
  | [] => false
  | c :: rest => (match3 ref (c :: rest)).isSome || findPass3 ref rest

/-- `highlightRefs`: return the text unchanged for an empty identifier,
otherwise apply the three emphasis passes in order. -/
def highlightRefs (text ref : Str) : Str :=
  if ref.length = 0 then text
  else
    let t1 := pass1 ref text.length text
    let t2 := pass2 ref t1.length t1
    pass3 ref t2.length t2

/-! ### Page generation (`generateHTML`'s section loop) -/

/-- The body of `generateHTML`'s loop for one section at (1-based) position
`index`: derive the tag, rewrite cross references and self references in the
rendered prose, and copy `CodeHTML` unless the section's raw code text
begins with `pragma` or `import`.  `none` models the Go panic raised by the
tag/identifier derivation on a declaration line with no space. -/
def composeSection (index : Nat) (sec : Section) : Option TemplateSection :=
  match getSectionTag index sec.firstCodeLine, getFieldOrType sec.firstCodeLine with
  | some tag, some ref =>
    some
      { DocsHTML := highlightRefs (refReplaceAll sec.DocsHTML) ref,
        CodeHTML :=
          if !("pragma".data.isPrefixOf sec.codeText) &&
             !("import".data.isPrefixOf sec.codeText) then sec.CodeHTML else [],
        SectionTag := tag }
  | _, _ => none

/-- `generateHTML`'s loop over the sections, `i` counting from the given
start. -/
def generateGo : Nat → List Section → Option (List TemplateSection)
  | _, [] => some []
  | i, sec :: rest =>
    match composeSection (i + 1) sec, generateGo (i + 1) rest with
    | some t, some ts => some (t :: ts)
    | _, _ => none

/-- The ordered `TemplateSection`s `generateHTML` hands to the page
template (the template substitution itself and the file write are outside
the modelled core). -/
def generateHTMLSections (secs : List Section) : Option (List TemplateSection) :=
  generateGo 0 secs

/-! ## Lemmas about the segmenter -/

theorem joinNl_cons (x : Str) (xs : List Str) :
    joinNl (x :: xs) = x ++ ['\n'] ++ joinNl xs := by
  simp [joinNl]

theorem joinNl_snoc (a : List Str) (x : Str) :
    joinNl (a ++ [x]) = joinNl a ++ x ++ ['\n'] := by
  simp [joinNl, List.append_assoc]

theorem joinNl_eq_nil_or_snoc (ls : List Str) :
    joinNl ls = [] ∨ ∃ t, joinNl ls = t ++ ['\n'] := by
  induction ls with
  | nil => exact Or.inl rfl
  | cons x xs ih =>
    right
    rw [joinNl_cons]
    rcases ih with h | ⟨t, ht⟩
    · exact ⟨x, by rw [h, List.append_nil]⟩
    · exact ⟨x ++ ['\n'] ++ t, by rw [ht]; simp [List.append_assoc]⟩

theorem splitOnChar_ne_nil (sep : Char) (l : Str) : splitOnChar sep l ≠ [] := by
  induction l with
  | nil => simp [splitOnChar]
  | cons c rest ih =>
    rcases h : splitOnChar sep rest with _ | ⟨g, gs⟩
    · exact absurd h ih
    · rw [splitOnChar, h]
      dsimp only
      split <;> simp

theorem joinNl_splitOnChar (l : Str) :
    joinNl (splitOnChar '\n' l) = l ++ ['\n'] := by
  induction l with
  | nil => rfl
  | cons c rest ih =>
    rcases h : splitOnChar '\n' rest with _ | ⟨g, gs⟩
    · exact absurd h (splitOnChar_ne_nil _ _)
    · rw [h] at ih
      rw [splitOnChar, h]
      dsimp only
      by_cases hc : c = '\n'
      · subst hc
        rw [if_pos rfl, joinNl_cons, ih]
        simp
      · rw [if_neg hc, joinNl_cons]
        rw [joinNl_cons] at ih
        simp only [List.cons_append, List.append_assoc] at ih ⊢
        rw [ih]

/-- `parse` is the projection of the instrumented segmenter: the buffers of
`parse` are the newline-joined recorded line lists. -/
theorem parseLines_eq_iparse (lang : Language) :
    ∀ (ls : List Str) (hc : Bool) (rawDocs docs codeLines : List Str) (fcl : Str),
    parseLines lang ls ⟨hc, joinNl codeLines, joinNl docs, fcl⟩ =
      (iparse lang ls ⟨hc, rawDocs, docs, codeLines, fcl⟩).map isectionToSection := by
  intro ls
  induction ls with
  | nil =>
    intro hc rawDocs docs codeLines fcl
    simp [parseLines, iparse, isectionToSection]
  | cons l rest ih =>
    intro hc rawDocs docs codeLines fcl
    rw [parseLines, iparse]
    rcases hcm : commentMatch lang l with _ | _
    · simp only [Bool.false_eq_true, if_false]
      have : joinNl codeLines ++ l ++ ['\n'] = joinNl (codeLines ++ [l]) :=
        (joinNl_snoc _ _).symm
      rw [this]
      exact ih true rawDocs docs (codeLines ++ [l]) _
    · simp only [if_true]
      cases hc with
      | false =>
        simp only [Bool.false_eq_true, if_false]
        have : joinNl docs ++ stripComment lang l ++ ['\n'] =
            joinNl (docs ++ [stripComment lang l]) := (joinNl_snoc _ _).symm
        rw [this]
        exact ih false (rawDocs ++ [l]) (docs ++ [stripComment lang l]) codeLines fcl
      | true =>
        simp only [if_true, List.map_cons]
        refine congrArg₂ _ rfl ?_
        have h0 : (joinNl [] : Str) = [] := rfl
        have h1 : stripComment lang l ++ ['\n'] =
            joinNl [stripComment lang l] := by simp [joinNl]
        rw [← h0, h1] at *
        exact ih false [l] [stripComment lang l] [] fcl

/-- `parse` on a file is the projection of the instrumented run. -/
theorem parseFile_eq_iparseFile (lang : Language) (input : Str) :
    parseFile lang input = (iparseFile lang input).map isectionToSection :=
  parseLines_eq_iparse lang (splitOnChar '\n' input) false [] [] [] []

/-- The instrumented segmenter loses no line: flattening all sections' raw
lines (pre-strip docs lines followed by code lines) recovers the input
lines still to be scanned, after those already recorded in the state. -/
theorem iparse_rawLines (lang : Language) :
    ∀ (ls : List Str) (hc : Bool) (rawDocs docs codeLines : List Str) (fcl : Str),
    (hc = false → codeLines = []) →
    allRawLines (iparse lang ls ⟨hc, rawDocs, docs, codeLines, fcl⟩) =
      rawDocs ++ codeLines ++ ls := by
  intro ls
  induction ls with
  | nil =>
    intro hc rawDocs docs codeLines fcl _
    simp [iparse, allRawLines]
  | cons l rest ih =>
    intro hc rawDocs docs codeLines fcl hinv
    rw [iparse]
    rcases hcm : commentMatch lang l with _ | _
    · simp only [Bool.false_eq_true, if_false]
      rw [ih true rawDocs docs (codeLines ++ [l]) _ (by simp)]
      simp
    · simp only [if_true]
      cases hc with
      | false =>
        simp only [Bool.false_eq_true, if_false]
        rw [ih false (rawDocs ++ [l]) (docs ++ [stripComment lang l]) codeLines fcl hinv]
        rw [hinv rfl]
        simp
      | true =>
        simp only [if_true]
        rw [allRawLines, List.map_cons, List.flatten_cons]
        rw [show (List.map (fun s => s.rawDocs ++ s.codeLines)
              (iparse lang rest ⟨false, [l], [stripComment lang l], [], fcl⟩)).flatten =
            allRawLines (iparse lang rest ⟨false, [l], [stripComment lang l], [], fcl⟩)
          from rfl]
        rw [ih false [l] [stripComment lang l] [] fcl (fun _ => rfl)]
        simp

/-- Claim C1: concatenating every section's raw (pre-strip) text in order —
the prose lines as they appeared before comment-symbol stripping together
with the code lines — reproduces the original file's lines exactly, in
order, with nothing added or lost; the sections are totally ordered and
contiguous.  (`parse` is the projection of the instrumented segmenter,
whose recorded raw lines flatten back to the split of the input.) -/
theorem parse_raw_reconstruction (lang : Language) (input : Str) :
    parseFile lang input = (iparseFile lang input).map isectionToSection ∧
    allRawLines (iparseFile lang input) = splitOnChar '\n' input := by
  refine ⟨parseFile_eq_iparseFile lang input, ?_⟩
  have h := iparse_rawLines lang (splitOnChar '\n' input) false [] [] [] [] (fun _ => rfl)
  simpa using h

/-- Claim C3 (counterexample): on empty input, the single section produced
by `parse` has `codeText = "\n"`, not the empty string — `bytes.Split` of an
empty file yields one empty line, which the loop treats as a code line and
newline-terminates. -/
theorem parse_empty_input_code_not_empty :
    (parseFile solidity []).map Section.codeText = [['\n']] ∧
    ¬ (∀ sec ∈ parseFile solidity [], sec.codeText = []) := by
  constructor
  · decide
  · decide

/-- Claim C3 (amended): applied to an empty input, `parse` returns exactly
one `Section` whose `docsText` is empty and whose `codeText` is a single
newline; applied to an input all of whose lines match the comment pattern,
`parse` returns exactly one `Section`. -/
theorem parse_empty_and_comment_only :
    parseFile solidity [] = [⟨[], ['\n'], [], [], []⟩] ∧
    ∀ (lang : Language) (input : Str),
      (∀ l ∈ splitOnChar '\n' input, commentMatch lang l = true) →
      (parseFile lang input).length = 1 := by
  refine ⟨by decide, ?_⟩
  intro lang input hall
  have main : ∀ (ls : List Str) (st : PState), (∀ l ∈ ls, commentMatch lang l = true) →
      st.hasCode = false → (parseLines lang ls st).length = 1 := by
    intro ls
    induction ls with
    | nil => intro st _ _; rfl
    | cons l rest ih =>
      intro st hls hst
      rw [parseLines, hls l (by simp), if_pos rfl, hst]
      simp only [Bool.false_eq_true, if_false]
      exact ih _ (fun x hx => hls x (by simp [hx])) rfl
  exact main _ _ hall rfl

/-- Witness for the comment-only part of the amended C3. -/
theorem parse_comment_only_witness :
    (∀ l ∈ splitOnChar '\n' "/// a\n/// b".data, commentMatch solidity l = true) ∧
    (parseFile solidity "/// a\n/// b".data).length = 1 :=
  ⟨by decide, parse_empty_and_comment_only.2 solidity "/// a\n/// b".data (by decide)⟩

/-- Claim C10: every `Section` produced by `parse` has `docsText` and
`codeText` each either empty or ending in a newline, because every line is
newline-terminated when accumulated; in particular the concatenation of all
raw lines, each newline-terminated, is the input plus one extra trailing
newline (so a file whose last line lacks a trailing newline gains one). -/
theorem parse_texts_newline_terminated (lang : Language) (input : Str) :
    (∀ sec ∈ parseFile lang input,
      (sec.docsText = [] ∨ ∃ t, sec.docsText = t ++ ['\n']) ∧
      (sec.codeText = [] ∨ ∃ t, sec.codeText = t ++ ['\n'])) ∧
    joinNl (allRawLines (iparseFile lang input)) = input ++ ['\n'] := by
  constructor
  · intro sec hmem
    rw [parseFile_eq_iparseFile] at hmem
    obtain ⟨is, _, rfl⟩ := List.mem_map.1 hmem
    exact ⟨joinNl_eq_nil_or_snoc _, joinNl_eq_nil_or_snoc _⟩
  · have h := iparse_rawLines lang (splitOnChar '\n' input) false [] [] [] [] (fun _ => rfl)
    have h2 : allRawLines (iparseFile lang input) = splitOnChar '\n' input := by
      simpa using h
    rw [h2, joinNl_splitOnChar]

/-- Witness for C10 at input `"abc"` (no trailing newline in the input; the
reconstructed text gains one). -/
theorem parse_texts_newline_terminated_witness :
    (Section.mk [] "abc\n".data "abc".data [] []) ∈ parseFile solidity "abc".data ∧
    ((Section.mk [] "abc\n".data "abc".data [] []).docsText = [] ∨
      ∃ t, (Section.mk [] "abc\n".data "abc".data [] []).docsText = t ++ ['\n']) ∧
    ((Section.mk [] "abc\n".data "abc".data [] []).codeText = [] ∨
      ∃ t, (Section.mk [] "abc\n".data "abc".data [] []).codeText = t ++ ['\n']) ∧
    joinNl (allRawLines (iparseFile solidity "abc".data)) = "abc".data ++ ['\n'] := by
  refine ⟨by decide, ?_, ?_, (parse_texts_newline_terminated solidity "abc".data).2⟩
  · exact ((parse_texts_newline_terminated solidity "abc".data).1 _ (by decide)).1
  · exact ((parse_texts_newline_terminated solidity "abc".data).1 _ (by decide)).2

/-! ## Lemmas about the highlight coordinator -/

theorem highlightWrites_count (lang : Language) :
    ∀ secs : List Section,
    (highlightWrites lang secs).countP isDividerWrite = secs.length - 1 := by
  intro secs
  induction secs with
  | nil => rfl
  | cons s rest ih =>
    cases rest with
    | nil => rfl
    | cons s' rest' =>
      rw [highlightWrites]
      rw [List.countP_cons, List.countP_cons, ih]
      simp [isDividerWrite]

theorem splitFragments_length (symbol : Str) :
    ∀ (n : Nat) (out : Str), (splitFragments symbol out n).length = n := by
  intro n
  induction n with
  | zero => intro out; rfl
  | succ m ih =>
    intro out
    cases hfd : findDividerL symbol out with
    | none => simp [splitFragments, hfd, ih]
    | some ij => simp [splitFragments, hfd, ih]

theorem highlightLoop_codeHTML (symbol : Str) (md : Str → Str) :
    ∀ (secs : List Section) (out : Str),
    (highlightLoop symbol md out secs).map Section.CodeHTML =
      (splitFragments symbol out secs.length).map (fun f => hlStart ++ f ++ hlEnd) := by
  intro secs
  induction secs with
  | nil => intro out; rfl
  | cons s rest ih =>
    intro out
    cases hfd : findDividerL symbol out with
    | none => simp [highlightLoop, splitFragments, hfd, ih]
    | some ij => simp [highlightLoop, splitFragments, hfd, ih]

theorem highlightLoop_length (symbol : Str) (md : Str → Str)
    (secs : List Section) (out : Str) :
    (highlightLoop symbol md out secs).length = secs.length := by
  have h := congrArg List.length (highlightLoop_codeHTML symbol md secs out)
  simpa [splitFragments_length] using h

theorem highlightLoop_empty_buffer (symbol : Str) (md : Str → Str) :
    ∀ rest : List Section,
    (highlightLoop symbol md [] rest).map Section.CodeHTML =
      List.replicate rest.length (hlStart ++ hlEnd) := by
  intro rest
  induction rest with
  | nil => rfl
  | cons s rest' ih =>
    have hfd : findDividerL symbol [] = none := rfl
    simp [highlightLoop, hfd, ih, List.replicate_succ]

theorem splitFragments_empty_buffer (symbol : Str) :
    ∀ n : Nat, splitFragments symbol [] n = List.replicate n [] := by
  intro n
  induction n with
  | zero => rfl
  | succ m ih =>
    have hfd : findDividerL symbol [] = none := rfl
    simp [splitFragments, hfd, ih, List.replicate_succ]

/-- Claim C2: for `N ≥ 1` sections, the feeding loop writes exactly `N − 1`
divider tokens to the highlighter's input stream — one between each pair of
consecutive sections, none after the last — and the splitting loop assigns
exactly `N` code fragments back, the `i`-th fragment (split off at the
`i`-th encoded-divider match of the stripped output buffer) becoming the
re-wrapped `CodeHTML` of section `i`, in input order. -/
theorem highlight_divider_and_fragment_counts (lang : Language)
    (markdown : Str → Str) (pygOut : Str) (secs : List Section)
    (_h : secs ≠ []) :
    (highlightWrites lang secs).countP isDividerWrite = secs.length - 1 ∧
    (highlight lang markdown pygOut secs).length = secs.length ∧
    (highlight lang markdown pygOut secs).map Section.CodeHTML =
      (splitFragments lang.symbol (stripContainers pygOut) secs.length).map
        (fun f => hlStart ++ f ++ hlEnd) ∧
    (splitFragments lang.symbol (stripContainers pygOut) secs.length).length =
      secs.length :=
  ⟨highlightWrites_count lang secs,
   highlightLoop_length lang.symbol markdown secs (stripContainers pygOut),
   highlightLoop_codeHTML lang.symbol markdown secs (stripContainers pygOut),
   splitFragments_length lang.symbol secs.length (stripContainers pygOut)⟩

/-- Witness for C2 with two concrete sections and an empty highlighter
output. -/
theorem highlight_divider_and_fragment_counts_witness :
    ([Section.mk "a\n".data "x\n".data "x".data [] [],
      Section.mk [] "y\n".data "y".data [] []] ≠ ([] : List Section)) ∧
    (highlightWrites solidity
        [Section.mk "a\n".data "x\n".data "x".data [] [],
         Section.mk [] "y\n".data "y".data [] []]).countP isDividerWrite =
      [Section.mk "a\n".data "x\n".data "x".data [] [],
       Section.mk [] "y\n".data "y".data [] []].length - 1 ∧
    (highlight solidity (fun d => d) []
        [Section.mk "a\n".data "x\n".data "x".data [] [],
         Section.mk [] "y\n".data "y".data [] []]).length =
      [Section.mk "a\n".data "x\n".data "x".data [] [],
       Section.mk [] "y\n".data "y".data [] []].length ∧
    (highlight solidity (fun d => d) []
        [Section.mk "a\n".data "x\n".data "x".data [] [],
         Section.mk [] "y\n".data "y".data [] []]).map Section.CodeHTML =
      (splitFragments solidity.symbol (stripContainers [])
          [Section.mk "a\n".data "x\n".data "x".data [] [],
           Section.mk [] "y\n".data "y".data [] []].length).map
        (fun f => hlStart ++ f ++ hlEnd) ∧
    (splitFragments solidity.symbol (stripContainers [])
        [Section.mk "a\n".data "x\n".data "x".data [] [],
         Section.mk [] "y\n".data "y".data [] []].length).length =
      [Section.mk "a\n".data "x\n".data "x".data [] [],
       Section.mk [] "y\n".data "y".data [] []].length :=
  ⟨by decide,
   highlight_divider_and_fragment_counts solidity (fun d => d) []
     [Section.mk "a\n".data "x\n".data "x".data [] [],
      Section.mk [] "y\n".data "y".data [] []] (by decide)⟩

/-- Claim C5: when the encoded divider pattern is not found in the remaining
output buffer, the splitting loop raises no error: the entire remaining
buffer becomes that section's fragment and the buffer is left empty, so all
later sections receive empty fragments. -/
theorem highlight_missing_divider_takes_rest (symbol : Str) (md : Str → Str)
    (out : Str) (s : Section) (rest : List Section)
    (h : findDividerL symbol out = none) :
    (highlightLoop symbol md out (s :: rest)).map Section.CodeHTML =
      (hlStart ++ out ++ hlEnd) :: List.replicate rest.length (hlStart ++ hlEnd) ∧
    splitFragments symbol out (rest.length + 1) =
      out :: List.replicate rest.length [] := by
  constructor
  · rw [highlightLoop]
    simp only [h, List.map_cons]
    rw [List.take_length, List.drop_length]
    rw [highlightLoop_empty_buffer]
  · rw [splitFragments]
    simp only [h]
    rw [List.take_length, List.drop_length]
    rw [splitFragments_empty_buffer]

/-- Witness for C5: a buffer with no encoded divider, one leading section
and one trailing section. -/
theorem highlight_missing_divider_takes_rest_witness :
    findDividerL "///".data "abc".data = none ∧
    (highlightLoop "///".data (fun d => d) "abc".data
        [Section.mk [] [] [] [] [], Section.mk [] [] [] [] []]).map Section.CodeHTML =
      (hlStart ++ "abc".data ++ hlEnd) ::
        List.replicate [Section.mk [] [] [] [] []].length (hlStart ++ hlEnd) ∧
    splitFragments "///".data "abc".data ([Section.mk [] [] [] [] []].length + 1) =
      "abc".data :: List.replicate [Section.mk [] [] [] [] []].length [] :=
  ⟨by decide,
   highlight_missing_divider_takes_rest "///".data (fun d => d) "abc".data
     (Section.mk [] [] [] [] []) [Section.mk [] [] [] [] []] (by decide)⟩

/-- Claim C4 (counterexample): with a highlighter process that failed to
start (start error raised, empty output stream), the pipeline does not
terminate and still produces a full, degraded output for the file — the
claimed fail-fast behavior does not exist, because `highlight` discards
every process and stream error. -/
theorem highlight_failed_start_still_produces_output :
    generateHTMLSections
        (highlightProc solidity (fun d => d) ⟨true, []⟩
          (parseFile solidity "/// doc\ncode".data)) =
      some [⟨"doc\n".data, "<div class=\"highlight\"><pre></pre></div>".data, "1".data⟩] ∧
    generateHTMLSections
        (highlightProc solidity (fun d => d) ⟨true, []⟩
          (parseFile solidity "/// doc\ncode".data)) ≠ none := by
  constructor
  · decide
  · decide

/-- Claim C4 (amended): errors from starting the external highlighter and
from its streams are discarded, so `highlight` behaves identically whether
or not the process started; with the empty output read from a process that
never ran, every section's `CodeHTML` becomes the bare container markers,
and a degraded output is still produced for the file. -/
theorem highlight_ignores_process_errors (lang : Language)
    (markdown : Str → Str) (e : Bool) (out : Str) (secs : List Section) :
    highlightProc lang markdown ⟨e, out⟩ secs = highlight lang markdown out secs ∧
    (highlight lang markdown [] secs).map Section.CodeHTML =
      List.replicate secs.length (hlStart ++ hlEnd) := by
  refine ⟨rfl, ?_⟩
  rw [highlight, show stripContainers [] = [] from rfl]
  exact highlightLoop_empty_buffer lang.symbol markdown secs

/-! ## Lemmas about tag derivation -/

theorem splitOnPred_eq_splitOnChar :
    ∀ l : Str, (∀ part ∈ splitOnChar ' ' l, ∀ c ∈ part, isSpaceU c = false) →
    splitOnPred isSpaceU l = splitOnChar ' ' l := by
  intro l
  induction l with
  | nil => intro _; rfl
  | cons c rest ih =>
    intro h
    rcases hr : splitOnChar ' ' rest with _ | ⟨g, gs⟩
    · exact absurd hr (splitOnChar_ne_nil _ _)
    · by_cases hc : c = ' '
      · subst hc
        have hrest : ∀ part ∈ splitOnChar ' ' rest, ∀ ch ∈ part, isSpaceU ch = false := by
          intro part hp
          apply h
          rw [splitOnChar, hr]
          dsimp only
          rw [if_pos rfl]
          rw [hr] at hp
          exact List.mem_cons_of_mem _ hp
        rw [splitOnChar, hr]
        dsimp only
        rw [if_pos rfl, splitOnPred, ih hrest, hr]
        dsimp only
        rw [if_pos (by decide : isSpaceU ' ' = true)]
      · have hcpart : ∀ ch ∈ (c :: g), isSpaceU ch = false := by
          apply h
          rw [splitOnChar, hr]
          dsimp only
          rw [if_neg hc]
          exact List.mem_cons_self _ _
        have hrest : ∀ part ∈ splitOnChar ' ' rest, ∀ ch ∈ part, isSpaceU ch = false := by
          intro part hp ch hch
          rw [hr] at hp
          rcases List.mem_cons.1 hp with rfl | hp'
          · exact hcpart ch (List.mem_cons_of_mem _ hch)
          · refine h part ?_ ch hch
            rw [splitOnChar, hr]
            dsimp only
            rw [if_neg hc]
            exact List.mem_cons_of_mem _ hp'
        have hcs : isSpaceU c = false := hcpart c (List.mem_cons_self _ _)
        rw [splitOnChar, hr]
        dsimp only
        rw [if_neg hc, splitOnPred, ih hrest, hr]
        dsimp only
        rw [if_neg (by simp [hcs])]

theorem filter_nonempty_eq (parts : List Str) (h : ∀ part ∈ parts, part ≠ []) :
    parts.filter (fun part => !part.isEmpty) = parts := by
  refine List.filter_eq_self.2 ?_
  intro a ha
  cases a with
  | nil => exact absurd rfl (h _ ha)
  | cons x xs => rfl

theorem dropWhile_of_forall_false (p : Char → Bool) :
    ∀ l : Str, (∀ c ∈ l, p c = false) → l.dropWhile p = l := by
  intro l hl
  cases l with
  | nil => rfl
  | cons x xs =>
    rw [List.dropWhile_cons, hl x (List.mem_cons_self _ _)]
    simp

theorem trimSpace_of_no_space (part : Str) (h : ∀ c ∈ part, isSpaceU c = false) :
    trimSpace part = part := by
  rw [trimSpace, dropWhile_of_forall_false _ _ h,
    dropWhile_of_forall_false _ _ (fun c hc => h c (List.mem_reverse.1 hc)),
    List.reverse_reverse]

/-- Claim C6 (counterexample): on the declaration line `"dev  Foo"` (two
spaces) the code's tag is the empty string — `strings.Split` on single
spaces produces an empty second field — while the second
whitespace-delimited token of the line is `"Foo"`. -/
theorem tag_not_second_ws_token :
    getSectionTag 1 "dev  Foo".data = some [] ∧
    (wsTokens "dev  Foo".data)[1]? = some "Foo".data ∧
    getSectionTag 1 "dev  Foo".data ≠ (wsTokens "dev  Foo".data)[1]? := by
  refine ⟨by decide, by decide, by decide⟩

/-- Claim C6 (amended): for a declaration line (one starting with `notice`,
`dev`, `params` or `return`) the tag is `TrimSpace` of the field at index 1
of the split on single space characters; this coincides with the second
whitespace-delimited token exactly when the space-split fields are nonempty
and free of white space (tokens separated by single spaces).  A
non-declaration first line at 1-based position `i` gives tag `i`
stringified. -/
theorem tag_derivation_amended (i : Nat) (fcl : Str) :
    (isDecl fcl = false → getSectionTag i fcl = some (Nat.repr i).data) ∧
    (isDecl fcl = true →
      (∀ part ∈ splitOnChar ' ' fcl, part ≠ [] ∧ ∀ c ∈ part, isSpaceU c = false) →
      getSectionTag i fcl = (wsTokens fcl)[1]?) := by
  constructor
  · intro hd
    rw [getSectionTag, hd]
    simp
  · intro hd hclean
    rw [getSectionTag, hd]
    simp only [Bool.not_true, Bool.false_eq_true, if_false]
    rw [wsTokens, splitOnPred_eq_splitOnChar fcl (fun p hp => (hclean p hp).2),
      filter_nonempty_eq _ (fun p hp => (hclean p hp).1)]
    cases h1 : (splitOnChar ' ' fcl)[1]? with
    | none => rfl
    | some p =>
      have hp : p ∈ splitOnChar ' ' fcl := by
        have hlt : 1 < (splitOnChar ' ' fcl).length := by
          by_contra hle
          rw [List.getElem?_eq_none (Nat.le_of_not_lt hle)] at h1
          exact Option.noConfusion h1
        have := List.getElem?_eq_getElem hlt
        rw [this] at h1
        exact Option.some.inj h1 ▸ List.getElem_mem _
      rw [Option.map_some']
      rw [trimSpace_of_no_space p ((hclean p hp).2)]

/-- Witness for the amended C6: a single-spaced declaration line and a
non-declaration line at position 3. -/
theorem tag_derivation_amended_witness :
    isDecl "dev Foo bar".data = true ∧
    (∀ part ∈ splitOnChar ' ' "dev Foo bar".data,
      part ≠ [] ∧ ∀ c ∈ part, isSpaceU c = false) ∧
    getSectionTag 1 "dev Foo bar".data = (wsTokens "dev Foo bar".data)[1]? ∧
    getSectionTag 1 "dev Foo bar".data = some "Foo".data ∧
    isDecl "function f(x)".data = false ∧
    getSectionTag 3 "function f(x)".data = some (Nat.repr 3).data :=
  ⟨by decide, by decide,
   (tag_derivation_amended 1 "dev Foo bar".data).2 (by decide) (by decide),
   by decide, by decide,
   (tag_derivation_amended 3 "function f(x)".data).1 (by decide)⟩

/-- Claim C9: on a first code line that starts with a recognized keyword but
contains no space (for example `"dev"`), `getSectionTag` and
`getFieldOrType` index the second element of a one-element split — out of
bounds, a Go panic, `none` in this embedding — and the error branch is
reachable from the page-generation loop. -/
theorem tag_derivation_panics_without_space :
    getSectionTag 3 "dev".data = none ∧
    getFieldOrType "dev".data = none ∧
    generateHTMLSections [⟨[], [], "dev".data, [], []⟩] = none := by
  refine ⟨by decide, by decide, by decide⟩

/-! ## Lemmas about page generation -/

/-- Shape of the page-generation loop: a successful run maps each section,
by position, to the composed template section for its 1-based index. -/
theorem generateGo_spec :
    ∀ (secs : List Section) (k : Nat) (ts : List TemplateSection),
    generateGo k secs = some ts →
    ∀ (i : Nat) (sec : Section), secs[i]? = some sec →
      ∃ t, composeSection (k + i + 1) sec = some t ∧ ts[i]? = some t := by
  intro secs
  induction secs with
  | nil =>
    intro k ts _ i sec hsec
    simp at hsec
  | cons s rest ih =>
    intro k ts h i sec hsec
    rw [generateGo] at h
    cases hcs : composeSection (k + 1) s with
    | none => rw [hcs] at h; simp at h
    | some t =>
      rw [hcs] at h
      cases hgr : generateGo (k + 1) rest with
      | none => rw [hgr] at h; simp at h
      | some ts' =>
        rw [hgr] at h
        dsimp only at h
        have hts : ts = t :: ts' := (Option.some.inj h).symm
        subst hts
        cases i with
        | zero =>
          have hs : s = sec := by simpa using hsec
          subst hs
          exact ⟨t, hcs, by simp⟩
        | succ j =>
          have hsec' : rest[j]? = some sec := by simpa using hsec
          obtain ⟨t', hct', hts'⟩ := ih (k + 1) ts' hgr j sec hsec'
          refine ⟨t', ?_, by simpa using hts'⟩
          rw [show k + (j + 1) + 1 = k + 1 + j + 1 by omega]
          exact hct'

/-- Claim C7: a section whose raw `codeText` begins with `pragma` or
`import` is handed to the page renderer with empty `CodeHTML`, regardless
of what the highlighter stored in the section (`sec.CodeHTML` is
universally quantified here), while its rewritten prose and its tag are
emitted normally. -/
theorem code_suppressed_for_pragma_import
    (secs : List Section) (ts : List TemplateSection)
    (h : generateHTMLSections secs = some ts)
    (i : Nat) (sec : Section) (hsec : secs[i]? = some sec)
    (hpi : "pragma".data.isPrefixOf sec.codeText ∨
      "import".data.isPrefixOf sec.codeText) :
    ∃ tag ref, getSectionTag (i + 1) sec.firstCodeLine = some tag ∧
      getFieldOrType sec.firstCodeLine = some ref ∧
      ts[i]? = some ⟨highlightRefs (refReplaceAll sec.DocsHTML) ref, [], tag⟩ := by
  obtain ⟨t, hct, htsi⟩ := generateGo_spec secs 0 ts h i sec hsec
  rw [Nat.zero_add] at hct
  rcases htag : getSectionTag (i + 1) sec.firstCodeLine with _ | tag
  · rw [composeSection, htag] at hct
    simp at hct
  · rcases href : getFieldOrType sec.firstCodeLine with _ | ref
    · rw [composeSection, htag, href] at hct
      simp at hct
    · rw [composeSection, htag, href] at hct
      dsimp only at hct
      have hcond : (!("pragma".data.isPrefixOf sec.codeText) &&
          !("import".data.isPrefixOf sec.codeText)) = false := by
        rcases hpi with hp | hp <;> simp [hp]
      rw [hcond] at hct
      simp only [Bool.false_eq_true, if_false] at hct
      refine ⟨tag, ref, rfl, rfl, ?_⟩
      rw [htsi, ← Option.some.inj hct]

/-- Witness for C7: a section whose code begins with `import x`; the
highlighter's (arbitrary) output `CODE` is dropped. -/
theorem code_suppressed_for_pragma_import_witness :
    ∃ tag ref, getSectionTag (0 + 1) "import x".data = some tag ∧
      getFieldOrType "import x".data = some ref ∧
      ([(⟨"d".data, [], "1".data⟩ : TemplateSection)])[0]? =
        some ⟨highlightRefs (refReplaceAll "d".data) ref, [], tag⟩ :=
  code_suppressed_for_pragma_import
    [Section.mk [] "import x\n".data "import x".data "d".data "CODE".data]
    [⟨"d".data, [], "1".data⟩] (by decide) 0
    (Section.mk [] "import x\n".data "import x".data "d".data "CODE".data)
    (by decide) (by decide)

/-! ## Lemmas about the emphasis passes -/

theorem pass1_of_no_match (ref : Str) :
    ∀ (fuel : Nat) (l : Str), findPass1 ref l = false → pass1 ref fuel l = l := by
  intro fuel
  induction fuel with
  | zero => intro l _; rfl
  | succ f ih =>
    intro l h
    cases l with
    | nil => rfl
    | cons c rest =>
      rw [findPass1] at h
      obtain ⟨ha, hb⟩ := Bool.or_eq_false_iff.1 h
      have h1 : match1 ref (c :: rest) = none := by
        cases hm : match1 ref (c :: rest) with
        | none => rfl
        | some v => rw [hm] at ha; simp at ha
      rw [pass1, h1]
      dsimp only
      rw [ih rest hb]

theorem pass2_of_no_match (ref : Str) :
    ∀ (fuel : Nat) (l : Str), findPass2 ref l = false → pass2 ref fuel l = l := by
  intro fuel
  induction fuel with
  | zero => intro l _; rfl
  | succ f ih =>
    intro l h
    cases l with
    | nil => rfl
    | cons c rest =>
      rw [findPass2] at h
      obtain ⟨ha, hb⟩ := Bool.or_eq_false_iff.1 h
      have h1 : match2 ref (c :: rest) = none := by
        cases hm : match2 ref (c :: rest) with
        | none => rfl
        | some v => rw [hm] at ha; simp at ha
      rw [pass2, h1]
      dsimp only
      rw [ih rest hb]

theorem pass3_of_no_match (ref : Str) :
    ∀ (fuel : Nat) (l : Str), findPass3 ref l = false → pass3 ref fuel l = l := by
  intro fuel
  induction fuel with
  | zero => intro l _; rfl
  | succ f ih =>
    intro l h
    cases l with
    | nil => rfl
    | cons c rest =>
      rw [findPass3] at h
      obtain ⟨ha, hb⟩ := Bool.or_eq_false_iff.1 h
      have h1 : match3 ref (c :: rest) = none := by
        cases hm : match3 ref (c :: rest) with
        | none => rfl
        | some v => rw [hm] at ha; simp at ha
      rw [pass3, h1]
      dsimp only
      rw [ih rest hb]

/-- Claim C8 (counterexample): the identifier `Foo` is not a standalone
whitespace-delimited token of `" Foobar"` — its only occurrence is part of
the larger word `Foobar` — yet the first emphasis pass, which matches
whitespace followed by the identifier with no constraint on what follows,
wraps it. -/
theorem emphasis_wraps_inside_word :
    "Foo".data ∉ wsTokens " Foobar".data ∧
    highlightRefs " Foobar".data "Foo".data = " <strong>Foo</strong>bar".data ∧
    highlightRefs " Foobar".data "Foo".data ≠ " Foobar".data := by
  refine ⟨by decide, by decide, by decide⟩

/-- Claim C8 (amended): the emphasis passes wrap occurrences of the
identifier adjacent to white space — pass 1 those preceded by white space
regardless of what follows (even inside a larger word), pass 2 the
remainder followed by white space regardless of what precedes, pass 3
remaining whitespace-surrounded ones; when no occurrence in the text is
adjacent to white space (no pass finds a match), the text is left
unchanged. -/
theorem emphasis_adjacent_whitespace :
    (∀ (text ref : Str), findPass1 ref text = false → findPass2 ref text = false →
      findPass3 ref text = false → highlightRefs text ref = text) ∧
    highlightRefs " Foobar".data "Foo".data = " <strong>Foo</strong>bar".data := by
  constructor
  · intro text ref h1 h2 h3
    rw [highlightRefs]
    by_cases hr : ref.length = 0
    · rw [if_pos hr]
    · rw [if_neg hr]
      dsimp only
      rw [pass1_of_no_match ref text.length text h1]
      rw [pass2_of_no_match ref text.length text h2]
      rw [pass3_of_no_match ref text.length text h3]
  · decide

/-- Witness for the amended C8: identifier `x` has no occurrence at all in
`doc`, so the passes change nothing. -/
theorem emphasis_adjacent_whitespace_witness :
    findPass1 "x".data "doc".data = false ∧
    findPass2 "x".data "doc".data = false ∧
    findPass3 "x".data "doc".data = false ∧
    highlightRefs "doc".data "x".data = "doc".data :=
  ⟨by decide, by decide, by decide,
   emphasis_adjacent_whitespace.1 "doc".data "x".data (by decide) (by decide) (by decide)⟩

end Dappspec

